import Mathlib

/-!
# Verification of the Multi_agent_system optimization and consensus core

A shallow embedding, over `ℚ`, of the SPSA broker (`src/agents/controller.py`),
the connectivity graph service (`src/core/graph.py`) and the relevant
configuration defaults (`src/config/config.py`), together with theorems
settling the frozen claims about this code.

Modelling conventions:
* Python floats are modelled as rationals (`ℚ`); numpy vectors as `List ℚ`
  with componentwise `zipWith` arithmetic.
* Every call to a random source (`random.random`, `random.uniform`,
  `random.choice`, `np.random.choice`) is an explicit input of the embedded
  function; `random.choice` over a computed candidate list is modelled by an
  index reduced modulo the list length.
* Python exceptions are modelled with `Except String`; the single `except`
  handler of `Broker.process_task` becomes a `match` on the inner result.
* Python dicts keyed by edge pairs become association lists with unique keys
  (`dictGet` / `dictSet` / `dictDel` below mirror `d[k]`, `d[k] = v`, `del`).
-/

namespace MAS

set_option maxRecDepth 10000

/-! ## Rational vector helpers (numpy elementwise arithmetic) -/

/-- Componentwise sum of two vectors (numpy `+` on equal-length arrays). -/
def vadd (a b : List ℚ) : List ℚ := List.zipWith (· + ·) a b

/-- Componentwise difference of two vectors (numpy `-`). -/
def vsub (a b : List ℚ) : List ℚ := List.zipWith (· - ·) a b

/-- Scalar multiple of a vector (numpy scalar `*`). -/
def smul (c : ℚ) (a : List ℚ) : List ℚ := a.map (fun x => c * x)

/-- Dot product (`np.dot` on equal-length vectors). -/
def dotQ (a b : List ℚ) : ℚ := (List.zipWith (· * ·) a b).sum

/-! ## Association-list model of Python dicts keyed by broker pairs -/

/-- `d.get(k)`: first (unique) binding of `k`. -/
def dictGet (l : List ((ℕ × ℕ) × ℚ)) (k : ℕ × ℕ) : Option ℚ :=
  match l with
  | [] => none
  | e :: t => if e.1 = k then some e.2 else dictGet t k

/-- `d[k] = v`: replace the binding in place, or append a fresh one
(Python dicts keep the position of an existing key). -/
def dictSet (l : List ((ℕ × ℕ) × ℚ)) (k : ℕ × ℕ) (v : ℚ) : List ((ℕ × ℕ) × ℚ) :=
  match l with
  | [] => [(k, v)]
  | e :: t => if e.1 = k then (k, v) :: t else e :: dictSet t k v

/-- `if k in d: del d[k]`. -/
def dictDel (l : List ((ℕ × ℕ) × ℚ)) (k : ℕ × ℕ) : List ((ℕ × ℕ) × ℚ) :=
  l.filter (fun e => decide (e.1 ≠ k))

theorem dictGet_dictSet_self (l : List ((ℕ × ℕ) × ℚ)) (k : ℕ × ℕ) (v : ℚ) :
    dictGet (dictSet l k v) k = some v := by
  induction l with
  | nil => simp [dictGet, dictSet]
  | cons e t ih =>
    by_cases h : e.1 = k
    · simp [dictSet, h, dictGet]
    · simp [dictSet, h, dictGet, ih]

theorem dictGet_dictSet_ne (l : List ((ℕ × ℕ) × ℚ)) (k k' : ℕ × ℕ) (v : ℚ)
    (hne : k' ≠ k) : dictGet (dictSet l k v) k' = dictGet l k' := by
  induction l with
  | nil => simp [dictGet, dictSet, Ne.symm hne]
  | cons e t ih =>
    by_cases h : e.1 = k
    · subst h
      simp [dictSet, dictGet, Ne.symm hne]
    · by_cases h' : e.1 = k'
      · simp [dictSet, h, dictGet, h', hne]
      · simp [dictSet, h, dictGet, h', ih]

theorem dictGet_dictDel_self (l : List ((ℕ × ℕ) × ℚ)) (k : ℕ × ℕ) :
    dictGet (dictDel l k) k = none := by
  induction l with
  | nil => simp [dictGet, dictDel]
  | cons e t ih =>
    by_cases h : e.1 = k
    · simpa [dictDel, List.filter, h] using ih
    · simpa [dictDel, List.filter, h, dictGet] using ih

theorem dictGet_dictDel_ne (l : List ((ℕ × ℕ) × ℚ)) (k k' : ℕ × ℕ)
    (hne : k' ≠ k) : dictGet (dictDel l k) k' = dictGet l k' := by
  induction l with
  | nil => simp [dictGet, dictDel]
  | cons e t ih =>
    by_cases h : e.1 = k
    · subst h
      simpa [dictDel, List.filter, dictGet, Ne.symm hne] using ih
    · by_cases h' : e.1 = k'
      · simp [dictDel, List.filter, h, dictGet, h', hne]
      · simpa [dictDel, List.filter, h, dictGet, h'] using ih

theorem dictGet_map_decay (l : List ((ℕ × ℕ) × ℚ)) (k : ℕ × ℕ) (c : ℚ) :
    dictGet (l.map (fun e => (e.1, e.2 * c))) k = (dictGet l k).map (· * c) := by
  induction l with
  | nil => simp [dictGet]
  | cons e t ih =>
    by_cases h : e.1 = k
    · simp [dictGet, h]
    · simp [dictGet, h, ih]

/-- Generic preservation of a predicate along `List.foldl`. -/
theorem foldl_preserve {σ α : Type} {P : σ → Prop} {f : σ → α → σ}
    (hf : ∀ s a, P s → P (f s a)) :
    ∀ (l : List α) (s : σ), P s → P (l.foldl f s) := by
  intro l
  induction l with
  | nil => intro s hs; simpa using hs
  | cons a t ih => intro s hs; exact ih (f s a) (hf s a hs)

/-! ## Configuration defaults (`src/config/config.py`)

`SPSAConfig`: `alpha = 0.01`, `beta = 0.1`, `gamma_consensus = 0.02`,
`update_frequency = 10`.  `LVPConfig`: `h = 0.1`, `gamma = 0.05`.
File-based overriding of the defaults is out of scope; the embedded broker
takes `alpha`/`beta` (resp. `h`/`gamma`) as parameters so that theorems hold
for every configured value, with the defaults available as constants. -/

/-- `SPSAConfig` of `src/config/config.py` (the fields read by the broker). -/
structure SPSAConfigM where
  alpha : ℚ := 1 / 100
  beta : ℚ := 1 / 10
  update_frequency : ℕ := 10

/-- The default SPSA configuration returned by `get_spsa_config()`. -/
def defaultSPSAConfig : SPSAConfigM := {}

/-! ## Broker embedding (`src/agents/controller.py`) -/

/-- The task attributes read by `Broker._extract_features`:
`task_dict.get('priority', 5)`, `task_dict.get('complexity', 5)` and
`len(str(task_dict.get('prompt', '')))` (a natural number). -/
structure Task where
  priority : ℚ
  complexity : ℚ
  promptLen : ℕ

/-- One entry of `Broker.history`.  The source stores the triple
`(task_dict, result, execution_time)`; the fields consumed afterwards
(`Broker._calculate_loss`) are `result['success']` and the execution time,
which is what the model keeps. -/
structure OutcomeRec where
  success : Bool
  execTime : ℚ
deriving DecidableEq

/-- The dictionary returned by `Broker.process_task`.  The wall-clock
`execution_time` entry is not modelled (no claim depends on it). -/
structure TaskResult where
  status : String
  success : Bool
  error : Option String
  executorId : Option ℕ
deriving DecidableEq

/-- The mutable state of a `Broker`.  Executors are identified by their
`executor_id`; `performance_stats['total_time']` and the wall-clock part of
the statistics are not modelled (no claim depends on them). -/
structure BrokerState where
  executors : List ℕ
  theta : List ℚ
  load : ℚ
  taskCount : ℕ
  history : List OutcomeRec
  totalTasks : ℕ
  successfulTasks : ℕ
  averageLoad : ℚ
deriving DecidableEq

/-- The random draws consumed by one `Broker.process_task` call.
`fills i d` is the `random.uniform(-0.5, 0.5)` filler for feature dimension
`d` when scoring candidate `i`; `jitters i` is the `random.uniform(-0.1, 0.1)`
score jitter for candidate `i`; `execTime` is `random.uniform(0.5, 3.0)`;
`success` is `random.random() > 0.1`; `delta`, `lossJp`, `lossJm` feed the
SPSA update (sign vector and the `random.uniform(0, 0.1)` terms of the two
`_simulate_loss` calls). -/
structure TaskRand where
  fills : ℕ → ℕ → ℚ
  jitters : ℕ → ℚ
  execTime : ℚ
  success : Bool
  delta : List ℚ
  lossJp : ℚ
  lossJm : ℚ

/-- A single numpy array element assignment `a[i] = v`, which raises
`IndexError` when `i` is out of bounds. -/
def np_set (l : List ℚ) (i : ℕ) (v : ℚ) : Except String (List ℚ) :=
  if i < l.length then .ok (l.set i v) else .error "index out of bounds"

/-- `Broker._extract_features`: writes the three normalized task features
into `np.zeros(len(self.executors))` — raising `IndexError` when the vector
is shorter than 3 — then overwrites dimensions `3..D-1` with fresh uniform
draws (`fill`). -/
def extract_features (D : ℕ) (t : Task) (fill : ℕ → ℚ) :
    Except String (List ℚ) := do
  let f0 := List.replicate D (0 : ℚ)
  let f1 ← np_set f0 0 (t.priority / 10)
  let f2 ← np_set f1 1 (t.complexity / 10)
  let f3 ← np_set f2 2 (min ((t.promptLen : ℚ) / 1000) 1)
  pure ((List.range D).foldl (fun acc i => if 3 ≤ i then acc.set i (fill i) else acc) f3)

/-- The value of `Broker._extract_features` on the non-raising path
(`3 ≤ D`), as a total function. -/
def extract_vec (D : ℕ) (t : Task) (fill : ℕ → ℚ) : List ℚ :=
  (List.range D).foldl (fun acc i => if 3 ≤ i then acc.set i (fill i) else acc)
    ((((List.replicate D (0 : ℚ)).set 0 (t.priority / 10)).set 1
        (t.complexity / 10)).set 2 (min ((t.promptLen : ℚ) / 1000) 1))

theorem extract_features_ok (D : ℕ) (t : Task) (fill : ℕ → ℚ) (h : 3 ≤ D) :
    extract_features D t fill = .ok (extract_vec D t fill) := by
  have h0 : 0 < D := by omega
  have h1 : 1 < D := by omega
  have h2 : 2 < D := by omega
  simp [extract_features, extract_vec, np_set, h0, h1, h2, List.length_set,
    List.length_replicate, Bind.bind, Except.bind, Functor.map, Except.map,
    Pure.pure, Except.pure]

/-- The score the broker computes for candidate `i`
(`np.dot(features, self.theta) + random.uniform(-0.1, 0.1)`). -/
def scoreAt (theta : List ℚ) (t : Task) (fills : ℕ → ℕ → ℚ)
    (jitters : ℕ → ℚ) (D : ℕ) (i : ℕ) : ℚ :=
  dotQ (extract_vec D t (fills i)) theta + jitters i

/-- The body of the scoring loop of `Broker._select_executor`: extract a
fresh feature vector for candidate `i` (which may raise) and compute
`np.dot(features, self.theta) + random.uniform(-0.1, 0.1)`, paired with the
candidate. -/
def score_candidate (theta : List ℚ) (t : Task) (fills : ℕ → ℕ → ℚ)
    (jitters : ℕ → ℚ) (execs : List ℕ) (i : ℕ) : Except String (ℚ × ℕ) := do
  let feats ← extract_features execs.length t (fills i)
  pure (dotQ feats theta + jitters i, execs.getD i 0)

/-- `Broker._select_executor`: returns `None` when the executor list is
empty; otherwise scores every candidate (re-extracting features, hence
re-drawing filler dimensions, per candidate), sorts the `(score, executor)`
pairs by score in descending order with Python's stable sort (modelled by
the stable `List.insertionSort`), and returns the first executor.
Exceptions escaping feature extraction propagate to the caller. -/
def select_executor (theta : List ℚ) (t : Task) (fills : ℕ → ℕ → ℚ)
    (jitters : ℕ → ℚ) (execs : List ℕ) : Except String (Option ℕ) :=
  if execs = [] then .ok none
  else do
    let scored ← (List.range execs.length).mapM (score_candidate theta t fills jitters execs)
    match (List.insertionSort (fun a b : ℚ × ℕ => b.1 ≤ a.1) scored).head? with
    | some p => pure (some p.2)
    | none => pure none

/-- `Broker._simulate_loss`: `np.sum(theta ** 2) * 0.1 + random.uniform(0, 0.1)`,
with the uniform draw `j` passed in. -/
def simulate_loss (theta : List ℚ) (j : ℚ) : ℚ :=
  (theta.map (fun x => x * x)).sum * (1 / 10) + j

/-- `Broker._calculate_loss`: mean over the history window of
`exec_time / 5 + (0 if success else 1)`; `1.0` for an empty window. -/
def calculate_loss (h : List OutcomeRec) : ℚ :=
  if h = [] then 1
  else (h.map (fun r => r.execTime / 5 + (if r.success then 0 else 1))).sum / h.length

/-- One component of `np.clip(theta, -2.0, 2.0)`. -/
def clipQ (v : ℚ) : ℚ := min (max v (-2)) 2

/-- `Broker._update_spsa_parameters`: no-op when the history holds fewer
than 10 records (the threshold is hardcoded; `SPSAConfig.update_frequency`
is never read here), otherwise a two-point SPSA step on `theta` followed by
clipping to `[-2, 2]`.  `alpha` and `beta` come from `get_spsa_config()`;
`delta` is the `np.random.choice([-1, 1], size=len(theta))` draw and
`jp`/`jm` the uniform terms of the two `_simulate_loss` evaluations.
The loss of the recent window (`history[-10:]`) is computed exactly as in
the source but, as in the source, its value is unused. -/
def update_spsa (alpha beta : ℚ) (st : BrokerState) (delta : List ℚ)
    (jp jm : ℚ) : BrokerState :=
  if st.history.length < 10 then st
  else
    let _loss := calculate_loss (st.history.drop (st.history.length - 10))
    let thetaPlus := vadd st.theta (smul beta delta)
    let thetaMinus := vsub st.theta (smul beta delta)
    let lossPlus := simulate_loss thetaPlus jp
    let lossMinus := simulate_loss thetaMinus jm
    let gradApprox := smul ((lossPlus - lossMinus) / (2 * beta)) delta
    { st with theta := (vsub st.theta (smul alpha gradApprox)).map clipQ }

/-- `Broker.balance_load`, expressed on the neighbor load list
(`[neighbor.load for neighbor in self.neighbors]`; both emptiness guards of
the source test emptiness of this same list).  `h` and `gamma` come from
`get_lvp_config()`. -/
def balance_load (h gamma selfLoad : ℚ) (neighborLoads : List ℚ) : ℚ :=
  if neighborLoads = [] then selfLoad
  else
    let avgNeighborLoad := neighborLoads.sum / neighborLoads.length
    let loadDifference := selfLoad - avgNeighborLoad
    let loadAdjustment := -(h * loadDifference) - gamma * loadDifference
    max 0 (selfLoad + loadAdjustment * (1 / 10))

/-- `Broker.process_task`: select an executor (any exception becomes a
`status = 'error'` result via the catch-all handler), simulate execution,
update statistics and load, append to history, and run the SPSA update once
the history holds at least 10 records. -/
def process_task (cfg : SPSAConfigM) (st : BrokerState) (t : Task)
    (r : TaskRand) : TaskResult × BrokerState :=
  match select_executor st.theta t r.fills r.jitters st.executors with
  | .error e => (⟨"error", false, some e, none⟩, st)
  | .ok none => (⟨"failed", false, some "No available executor", none⟩, st)
  | .ok (some ex) =>
      let st1 : BrokerState :=
        { st with
          taskCount := st.taskCount + 1
          totalTasks := st.totalTasks + 1
          successfulTasks := st.successfulTasks + (if r.success then 1 else 0)
          load := st.load + r.execTime * (1 / 10) }
      let st2 : BrokerState :=
        { st1 with
          averageLoad :=
            if 0 < st1.totalTasks then st1.load / st1.totalTasks
            else st1.averageLoad }
      let st3 : BrokerState := { st2 with history := st2.history ++ [⟨r.success, r.execTime⟩] }
      let st4 : BrokerState :=
        if 10 ≤ st3.history.length then
          update_spsa cfg.alpha cfg.beta st3 r.delta r.lossJp r.lossJm
        else st3
      (⟨"completed", r.success, none, some ex⟩, st4)

/-! ## Characterizing the head of the stable descending sort -/

/-- The first maximum of a scored list: the element Python's stable
descending sort places first. -/
def firstMax : List (ℚ × ℕ) → Option (ℚ × ℕ)
  | [] => none
  | x :: t =>
    match firstMax t with
    | none => some x
    | some b => some (if b.1 ≤ x.1 then x else b)

theorem head?_orderedInsert (x : ℚ × ℕ) (s : List (ℚ × ℕ)) :
    (List.orderedInsert (fun a b : ℚ × ℕ => b.1 ≤ a.1) x s).head? =
      some (match s.head? with
            | none => x
            | some b => if b.1 ≤ x.1 then x else b) := by
  cases s with
  | nil => rfl
  | cons b t =>
    by_cases h : b.1 ≤ x.1 <;> simp [List.orderedInsert, h]

theorem head?_insertionSort (l : List (ℚ × ℕ)) :
    (List.insertionSort (fun a b : ℚ × ℕ => b.1 ≤ a.1) l).head? = firstMax l := by
  induction l with
  | nil => rfl
  | cons x t ih =>
    rw [List.insertionSort, head?_orderedInsert, ih]
    cases hft : firstMax t <;> simp [firstMax, hft]

theorem firstMax_isSome (l : List (ℚ × ℕ)) (h : l ≠ []) :
    ∃ b, firstMax l = some b := by
  cases l with
  | nil => exact absurd rfl h
  | cons x t =>
    cases hft : firstMax t <;> simp [firstMax, hft]

/-- The element produced by `firstMax` is the first list entry attaining the
maximal score: it is in the list, its score dominates every entry, and every
strictly earlier entry scores strictly less. -/
theorem firstMax_spec (l : List (ℚ × ℕ)) (b : ℚ × ℕ)
    (h : firstMax l = some b) :
    ∃ k, k < l.length ∧ l.getD k (0, 0) = b ∧
      (∀ j, j < l.length → (l.getD j (0, 0)).1 ≤ b.1) ∧
      (∀ j, j < k → (l.getD j (0, 0)).1 < b.1) := by
  induction l generalizing b with
  | nil => simp [firstMax] at h
  | cons x t ih =>
    cases hft : firstMax t with
    | none =>
      cases t with
      | cons y s => cases hfs : firstMax s <;> simp [firstMax, hfs] at hft
      | nil =>
        simp [firstMax] at h
        refine ⟨0, by simp, by simp [h], ?_, by intro j hj; omega⟩
        intro j hj
        have hj0 : j = 0 := by simpa using Nat.lt_one_iff.mp hj
        simp [hj0, h]
    | some bt =>
      obtain ⟨k', hk', hget, hmax, hstr⟩ := ih bt hft
      rw [firstMax, hft] at h
      by_cases hle : bt.1 ≤ x.1
      · simp [hle] at h
        refine ⟨0, by simp, by simp [h], ?_, by intro j hj; omega⟩
        intro j hj
        cases j with
        | zero => simp [h]
        | succ j' =>
          have : (t.getD j' (0, 0)).1 ≤ bt.1 := hmax j' (by simpa using hj)
          simp only [List.getD_cons_succ]
          calc (t.getD j' (0, 0)).1 ≤ bt.1 := this
            _ ≤ x.1 := hle
            _ = b.1 := by rw [h]
      · simp [hle] at h
        subst h
        refine ⟨k' + 1, by simpa using hk', by simpa using hget, ?_, ?_⟩
        · intro j hj
          cases j with
          | zero => simpa using le_of_lt (lt_of_not_le hle)
          | succ j' => simpa using hmax j' (by simpa using hj)
        · intro j hj
          cases j with
          | zero => simpa using lt_of_not_le hle
          | succ j' => simpa using hstr j' (by omega)

/-- `mapM` over `Except` succeeds pointwise. -/
theorem mapM_ok {α β : Type} (f : α → Except String β) (g : α → β)
    (l : List α) (h : ∀ a ∈ l, f a = .ok (g a)) :
    l.mapM f = .ok (l.map g) := by
  induction l with
  | nil => rfl
  | cons a t ih =>
    rw [List.mapM_cons, h a (by simp)]
    rw [ih (fun a ha => h a (by simp [ha]))]
    rfl

/-- `mapM` over `Except` fails as soon as its first element fails. -/
theorem mapM_cons_error {α β : Type} (f : α → Except String β) (a : α)
    (t : List α) (e : String) (h : f a = .error e) :
    (a :: t).mapM f = .error e := by
  rw [List.mapM_cons, h]
  rfl

/-! ## Behaviour of `Broker._select_executor` -/

/-- The `(score, executor)` pairs built by the selection loop. -/
def scoredList (theta : List ℚ) (t : Task) (fills : ℕ → ℕ → ℚ)
    (jitters : ℕ → ℚ) (execs : List ℕ) : List (ℚ × ℕ) :=
  (List.range execs.length).map
    (fun i => (scoreAt theta t fills jitters execs.length i, execs.getD i 0))

theorem getD_map_range {β : Type} [Inhabited β] (n j : ℕ) (f : ℕ → β) (d : β)
    (hj : j < n) : (((List.range n).map f).getD j d) = f j := by
  rw [List.getD_eq_getElem?_getD, List.getElem?_map, List.getElem?_range hj]
  rfl

theorem scoredList_getD (theta : List ℚ) (t : Task) (fills : ℕ → ℕ → ℚ)
    (jitters : ℕ → ℚ) (execs : List ℕ) (j : ℕ) (hj : j < execs.length) :
    (scoredList theta t fills jitters execs).getD j (0, 0) =
      (scoreAt theta t fills jitters execs.length j, execs.getD j 0) := by
  exact getD_map_range execs.length j _ (0, 0) hj

theorem scoredList_length (theta : List ℚ) (t : Task) (fills : ℕ → ℕ → ℚ)
    (jitters : ℕ → ℚ) (execs : List ℕ) :
    (scoredList theta t fills jitters execs).length = execs.length := by
  simp [scoredList]

/-- On an executor list of length at least 3 the selection succeeds and
returns the first entry attaining the maximal score. -/
theorem select_executor_spec (theta : List ℚ) (t : Task) (fills : ℕ → ℕ → ℚ)
    (jitters : ℕ → ℚ) (execs : List ℕ) (h3 : 3 ≤ execs.length) :
    ∃ k, k < execs.length ∧
      select_executor theta t fills jitters execs = .ok (some (execs.getD k 0)) ∧
      (∀ j, j < execs.length →
        scoreAt theta t fills jitters execs.length j ≤
          scoreAt theta t fills jitters execs.length k) ∧
      (∀ j, j < k →
        scoreAt theta t fills jitters execs.length j <
          scoreAt theta t fills jitters execs.length k) := by
  have hne : execs ≠ [] := by
    intro h
    rw [h] at h3
    simp at h3
  have hmapM : (List.range execs.length).mapM
      (score_candidate theta t fills jitters execs) =
      .ok (scoredList theta t fills jitters execs) := by
    apply mapM_ok
    intro i _
    rw [score_candidate, extract_features_ok execs.length t (fills i) h3]
    rfl
  have hlnil : scoredList theta t fills jitters execs ≠ [] := by
    intro h
    have := scoredList_length theta t fills jitters execs
    rw [h] at this
    simp at this
    omega
  obtain ⟨b, hb⟩ := firstMax_isSome _ hlnil
  obtain ⟨k, hk, hget, hmax, hstr⟩ := firstMax_spec _ b hb
  rw [scoredList_length] at hk
  rw [scoredList_getD theta t fills jitters execs k hk] at hget
  refine ⟨k, hk, ?_, ?_, ?_⟩
  · have hsel : select_executor theta t fills jitters execs =
        match (List.insertionSort (fun a b : ℚ × ℕ => b.1 ≤ a.1)
            (scoredList theta t fills jitters execs)).head? with
        | some p => pure (some p.2)
        | none => pure none := by
      rw [select_executor, if_neg hne]
      show ((List.range execs.length).mapM
        (score_candidate theta t fills jitters execs) >>= _) = _
      rw [hmapM]
      rfl
    rw [hsel, head?_insertionSort, hb, ← hget]
    rfl
  · intro j hj
    have := hmax j (by rw [scoredList_length]; exact hj)
    rw [scoredList_getD theta t fills jitters execs j hj] at this
    simpa [← hget] using this
  · intro j hj
    have := hstr j hj
    rw [scoredList_getD theta t fills jitters execs j (by omega)] at this
    simpa [← hget] using this

/-- With one or two executors the feature vector is too short: the first
scoring iteration raises and the raise escapes `_select_executor`. -/
theorem select_executor_err (theta : List ℚ) (t : Task) (fills : ℕ → ℕ → ℚ)
    (jitters : ℕ → ℚ) (execs : List ℕ)
    (h12 : execs.length = 1 ∨ execs.length = 2) :
    select_executor theta t fills jitters execs = .error "index out of bounds" := by
  have hne : execs ≠ [] := by
    intro h
    rw [h] at h12
    simp at h12
  have hext : extract_features execs.length t (fills 0) =
      .error "index out of bounds" := by
    rcases h12 with h | h <;>
      simp [extract_features, np_set, h, Bind.bind, Except.bind]
  have hrange : ∃ rest, List.range execs.length = 0 :: rest := by
    rcases h12 with h | h <;> rw [h] <;> exact ⟨_, rfl⟩
  obtain ⟨rest, hr⟩ := hrange
  have hstep : score_candidate theta t fills jitters execs 0 =
      .error "index out of bounds" := by
    rw [score_candidate, hext]
    rfl
  rw [select_executor, if_neg hne]
  show ((List.range execs.length).mapM _ >>= _) = _
  rw [hr, mapM_cons_error _ 0 rest "index out of bounds" hstep]
  rfl

/-! ## Graph service embedding (`src/core/graph.py`)

The source keeps the adjacency matrix and the per-node neighbor lists in
lockstep (both are mutated only through `_add_edge` / `_remove_edge`); the
model keeps the neighbor lists only and reads adjacency as list membership.
Random draws are explicit inputs, with `random.choice` over a computed
candidate list modelled as an index reduced modulo the list length. -/

/-- State of `GraphService`: per-node neighbor lists (the dict
`{i: [] for i in range(num_brokers)}`) and the edge-weight dict, plus the
parameters fixed in `__init__`. -/
structure GraphState where
  numBrokers : ℕ
  neighbors : List (List ℕ)
  weights : List ((ℕ × ℕ) × ℚ)
  minNeighbors : ℕ := 2
  maxNeighbors : ℕ := 5
  weightDecay : ℚ := 19 / 20
deriving DecidableEq

/-- `GraphService.get_neighbors` (`self.neighbors.get(broker_id, [])`). -/
def get_neighbors (g : GraphState) (i : ℕ) : List ℕ :=
  g.neighbors.getD i []

/-- `GraphService.get_weight` (`self.weights.get((i, j), 0.0)`). -/
def get_weight (g : GraphState) (i j : ℕ) : ℚ :=
  (dictGet g.weights (i, j)).getD 0

/-- Degree of a node: length of its neighbor list. -/
def degree (g : GraphState) (i : ℕ) : ℕ :=
  (get_neighbors g i).length

/-- `GraphService._add_edge`: append `j` to `neighbors[i]` if absent, then
`i` to `neighbors[j]` if absent (the adjacency-matrix writes are implied by
the membership reading of adjacency). -/
def add_edge (g : GraphState) (i j : ℕ) : GraphState :=
  let ni := g.neighbors.getD i []
  let ns1 := if j ∈ ni then g.neighbors else g.neighbors.set i (ni ++ [j])
  let nj := ns1.getD j []
  let ns2 := if i ∈ nj then ns1 else ns1.set j (nj ++ [i])
  { g with neighbors := ns2 }

/-- `GraphService._remove_edge`: `if j in neighbors[i]: neighbors[i].remove(j)`
in both directions (`List.erase` removes the first occurrence, exactly like
`list.remove` guarded by the membership test). -/
def remove_edge (g : GraphState) (i j : ℕ) : GraphState :=
  let ns1 := g.neighbors.set i ((g.neighbors.getD i []).erase j)
  let ns2 := ns1.set j ((ns1.getD j []).erase i)
  { g with neighbors := ns2 }

/-- The ordered pairs `(i, j)`, `i < j`, enumerated by the nested loops
`for i in range(n): for j in range(i + 1, n)`. -/
def pairList (n : ℕ) : List (ℕ × ℕ) :=
  (List.range n).flatMap (fun i => ((List.range n).filter (fun j => decide (i < j))).map (fun j => (i, j)))

/-- The body of the `while` loop in `GraphService._ensure_connectivity` for
node `i`, with explicit fuel.  Each successful iteration appends one fresh
neighbor to node `i`, so `minNeighbors` units of fuel make the model exhaust
its fuel only when the source loop would also have stopped. -/
def ensure_loop (g : GraphState) (i : ℕ) (pick : ℕ → ℕ) :
    ℕ → ℕ → GraphState
  | 0, _ => g
  | fuel + 1, it =>
    if (g.neighbors.getD i []).length < g.minNeighbors then
      let cands := (List.range g.numBrokers).filter
        (fun j => decide (j ≠ i ∧ j ∉ g.neighbors.getD i [] ∧
          (g.neighbors.getD j []).length < g.maxNeighbors))
      if cands = [] then g
      else
        ensure_loop (add_edge g i (cands.getD (pick it % cands.length) 0)) i pick fuel (it + 1)
    else g

/-- `GraphService._ensure_connectivity`: for every node in order, repair its
degree up to `minNeighbors` while eligible partners exist.  `pick i it` is
the `random.choice` index for node `i` at loop iteration `it`. -/
def ensure_connectivity (g : GraphState) (pick : ℕ → ℕ → ℕ) : GraphState :=
  (List.range g.numBrokers).foldl
    (fun g' i => ensure_loop g' i (pick i) g'.minNeighbors 0) g

/-- `GraphService._initialize_weights`: for every stored edge `(i, j)` with
`i < j`, set both directions to `2 / (deg(i) + deg(j))` (`0` if the degree
sum is zero).  The degree table is read once before the loop, as in the
source. -/
def initialize_weights (g : GraphState) : GraphState :=
  let degrees := fun i => (g.neighbors.getD i []).length
  { g with
    weights :=
      (List.range g.numBrokers).foldl (fun acc i =>
        (g.neighbors.getD i []).foldl (fun acc2 j =>
          if i < j then
            let w : ℚ :=
              if 0 < degrees i + degrees j then 2 / ((degrees i : ℚ) + degrees j) else 0
            dictSet (dictSet acc2 (i, j) w) (j, i) w
          else acc2) acc) g.weights }

/-- `GraphService.__init__` followed by `_generate_initial_graph`:
start from isolated nodes, add each pair independently when its coin lands
(`random.random() < self.edge_probability`), repair connectivity, then
initialize the weights. -/
def graph_init (n : ℕ) (coin : ℕ → ℕ → Bool) (pick : ℕ → ℕ → ℕ) : GraphState :=
  let g0 : GraphState := { numBrokers := n, neighbors := List.replicate n [], weights := [] }
  let g1 := (pairList n).foldl
    (fun g p => if coin p.1 p.2 then add_edge g p.1 p.2 else g) g0
  initialize_weights (ensure_connectivity g1 pick)

/-- The weight-decay pass of `GraphService.update_graph`: every stored
weight is multiplied by `weight_decay`. -/
def decay_weights (g : GraphState) : GraphState :=
  { g with weights := g.weights.map (fun e => (e.1, e.2 * g.weightDecay)) }

/-- `GraphService._add_random_edge`: candidates are the non-adjacent pairs
whose endpoints are both below `maxNeighbors`; if any exist, add one and set
both weight directions to the fresh uniform draw `w`. -/
def add_random_edge (g : GraphState) (pick : ℕ) (w : ℚ) : GraphState :=
  let cands := (pairList g.numBrokers).filter
    (fun p => decide (p.2 ∉ g.neighbors.getD p.1 [] ∧
      (g.neighbors.getD p.1 []).length < g.maxNeighbors ∧
      (g.neighbors.getD p.2 []).length < g.maxNeighbors))
  if cands = [] then g
  else
    let p := cands.getD (pick % cands.length) (0, 0)
    let g1 := add_edge g p.1 p.2
    { g1 with weights := dictSet (dictSet g1.weights (p.1, p.2) w) (p.2, p.1) w }

/-- `GraphService._remove_random_edge`: candidates are the stored directed
edges whose endpoints both have degree above `minNeighbors`; if any exist,
remove one and delete both weight entries. -/
def remove_random_edge (g : GraphState) (pick : ℕ) : GraphState :=
  let cands := (List.range g.numBrokers).flatMap (fun i =>
    if g.minNeighbors < (g.neighbors.getD i []).length then
      ((g.neighbors.getD i []).filter
        (fun j => decide (g.minNeighbors < (g.neighbors.getD j []).length))).map
        (fun j => (i, j))
    else [])
  if cands = [] then g
  else
    let p := cands.getD (pick % cands.length) (0, 0)
    let g1 := remove_edge g p.1 p.2
    { g1 with weights := dictDel (dictDel g1.weights (p.1, p.2)) (p.2, p.1) }

/-- `GraphService._modify_random_weight`: if any weights are stored, pick a
stored key, overwrite it with the fresh draw `w`, and mirror the update onto
the reverse key when it is present. -/
def modify_random_weight (g : GraphState) (pick : ℕ) (w : ℚ) : GraphState :=
  if g.weights = [] then g
  else
    let keys := g.weights.map Prod.fst
    let e := keys.getD (pick % keys.length) (0, 0)
    let w1 := dictSet g.weights e w
    let w2 := if (dictGet w1 (e.2, e.1)).isSome then dictSet w1 (e.2, e.1) w else w1
    { g with weights := w2 }

/-- The `random.choice(['add', 'remove', 'modify_weight'])` draw. -/
inductive GAction where
  | add
  | remove
  | modifyWeight
deriving DecidableEq

/-- `GraphService._random_graph_modification`. -/
def random_graph_modification (g : GraphState) (a : GAction) (pick : ℕ) (w : ℚ) :
    GraphState :=
  match a with
  | .add => add_random_edge g pick w
  | .remove => remove_random_edge g pick
  | .modifyWeight => modify_random_weight g pick w

/-- `GraphService.update_graph` (one tick): decay all weights, then with the
10% coin `doMod` perform one structural modification. -/
def update_graph (g : GraphState) (doMod : Bool) (a : GAction) (pick : ℕ)
    (w : ℚ) : GraphState :=
  let g1 := decay_weights g
  if doMod then random_graph_modification g1 a pick w else g1

/-- One observable evolution step of the graph: a bare decay pass, a bare
structural mutation, or a full `update_graph` tick. -/
inductive GStep where
  | decay
  | mutate (a : GAction) (pick : ℕ) (w : ℚ)
  | tick (doMod : Bool) (a : GAction) (pick : ℕ) (w : ℚ)

/-- Apply one evolution step. -/
def applyStep (g : GraphState) : GStep → GraphState
  | .decay => decay_weights g
  | .mutate a pick w => random_graph_modification g a pick w
  | .tick doMod a pick w => update_graph g doMod a pick w

/-- Apply a sequence of evolution steps. -/
def applySteps (g : GraphState) : List GStep → GraphState
  | [] => g
  | s :: rest => applySteps (applyStep g s) rest

/-! ## Consensus update (`GraphService.consensus_update`) -/

/-- The updated parameter vector for broker `i` computed from the broker
table `ths` as it stands:
`theta_i + gamma * sum over stored neighbors j of weight(i,j) * (theta_j - theta_i)`,
with neighbors outside the broker table skipped (the `neighbor_id in
broker_dict` guard; every modelled broker has a `theta`, so the `hasattr`
guard is always true). -/
def consensus_new_theta (g : GraphState) (gamma : ℚ) (ths : List (List ℚ))
    (i : ℕ) : List ℚ :=
  let thetaI := ths.getD i []
  let consensusTerm := (get_neighbors g i).foldl
    (fun acc j =>
      if j < ths.length then
        vadd acc (smul (get_weight g i j) (vsub (ths.getD j []) thetaI))
      else acc)
    (List.replicate thetaI.length 0)
  vadd thetaI (smul gamma consensusTerm)

/-- The loop body of `consensus_update` for broker `i`: brokers without
neighbors are skipped, otherwise `theta_i` is overwritten in place. -/
def consensus_step (g : GraphState) (gamma : ℚ) (ths : List (List ℚ))
    (i : ℕ) : List (List ℚ) :=
  if get_neighbors g i = [] then ths
  else ths.set i (consensus_new_theta g gamma ths i)

/-- The consensus pass run over an explicit iteration order. -/
def consensus_seq (g : GraphState) (gamma : ℚ) (ids : List ℕ)
    (ths : List (List ℚ)) : List (List ℚ) :=
  ids.foldl (consensus_step g gamma) ths

/-- `GraphService.consensus_update` on a broker list: the brokers are keyed
`0, 1, ...` and iterated in that (dict insertion) order, each `theta`
being overwritten before the next broker is processed. -/
def consensus_update (g : GraphState) (ths : List (List ℚ)) (gamma : ℚ) :
    List (List ℚ) :=
  consensus_seq g gamma (List.range ths.length) ths

/-- Modelled from the spec: `consensusUpdate` as §4.4 describes it — every
correction is computed from a snapshot of all parameter vectors taken
before any broker is mutated, and all corrections are applied
simultaneously. -/
def consensus_update_snapshot (g : GraphState) (ths : List (List ℚ))
    (gamma : ℚ) : List (List ℚ) :=
  (List.range ths.length).map (fun i =>
    if get_neighbors g i = [] then ths.getD i []
    else consensus_new_theta g gamma ths i)

/-! ## Generic list-table helpers -/

theorem getD_set_ne {β : Type} (l : List β) (i k : ℕ) (x d : β) (h : i ≠ k) :
    (l.set i x).getD k d = l.getD k d := by
  rw [List.getD_eq_getElem?_getD, List.getElem?_set_ne h, ← List.getD_eq_getElem?_getD]

theorem getD_set_self {β : Type} (l : List β) (i : ℕ) (x d : β)
    (h : i < l.length) : (l.set i x).getD i d = x := by
  rw [List.getD_eq_getElem?_getD, List.getElem?_set_self h]
  rfl

theorem getD_set_oob {β : Type} (l : List β) (i : ℕ) (x : β)
    (h : ¬ i < l.length) : l.set i x = l :=
  List.set_eq_of_length_le (by omega)

theorem getD_mem {β : Type} (l : List β) (n : ℕ) (d : β) (h : n < l.length) :
    l.getD n d ∈ l := by
  rw [List.getD_eq_getElem?_getD, List.getElem?_eq_getElem h]
  exact List.getElem_mem h

theorem erase_length_le (l : List ℕ) (a : ℕ) : (l.erase a).length ≤ l.length :=
  List.Sublist.length_le (List.erase_sublist a l)

/-! ## Structural facts about the graph operations -/

theorem numBrokers_add_edge (g : GraphState) (i j : ℕ) :
    (add_edge g i j).numBrokers = g.numBrokers := rfl

theorem weights_add_edge (g : GraphState) (i j : ℕ) :
    (add_edge g i j).weights = g.weights := rfl

theorem maxNeighbors_add_edge (g : GraphState) (i j : ℕ) :
    (add_edge g i j).maxNeighbors = g.maxNeighbors := rfl

theorem neighbors_decay_weights (g : GraphState) :
    (decay_weights g).neighbors = g.neighbors := rfl

theorem neighbors_modify_random_weight (g : GraphState) (p : ℕ) (w : ℚ) :
    (modify_random_weight g p w).neighbors = g.neighbors := by
  rw [modify_random_weight]
  split
  · rfl
  · rfl

/-- Degree of the first endpoint after `_add_edge` grows by at most one. -/
theorem degree_add_edge_fst (g : GraphState) (i j : ℕ) (hij : i ≠ j) :
    degree (add_edge g i j) i ≤ degree g i + 1 := by
  rw [degree, get_neighbors, add_edge]
  simp only
  have houter : ∀ ns : List (List ℕ),
      (if i ∈ ns.getD j [] then ns else ns.set j (ns.getD j [] ++ [i])).getD i [] =
        ns.getD i [] := by
    intro ns
    split
    · rfl
    · exact getD_set_ne _ j i _ _ (Ne.symm hij)
  rw [houter]
  by_cases hmem : j ∈ g.neighbors.getD i []
  · rw [if_pos hmem]
    simp only [degree, get_neighbors]
    exact Nat.le_succ _
  · rw [if_neg hmem]
    by_cases hlen : i < g.neighbors.length
    · rw [getD_set_self _ i _ _ hlen]
      simp only [degree, get_neighbors, List.length_append, List.length_cons,
        List.length_nil]
      omega
    · rw [getD_set_oob _ i _ hlen]
      simp only [degree, get_neighbors]
      exact Nat.le_succ _

/-- Degree of the second endpoint after `_add_edge` grows by at most one. -/
theorem degree_add_edge_snd (g : GraphState) (i j : ℕ) (hij : i ≠ j) :
    degree (add_edge g i j) j ≤ degree g j + 1 := by
  rw [degree, get_neighbors, add_edge]
  simp only
  have hgetj : (if j ∈ g.neighbors.getD i [] then g.neighbors
      else g.neighbors.set i (g.neighbors.getD i [] ++ [j])).getD j [] =
      g.neighbors.getD j [] := by
    split
    · rfl
    · exact getD_set_ne _ i j _ _ hij
  rw [hgetj]
  by_cases hmem : i ∈ g.neighbors.getD j []
  · simp only [hmem, if_true]
    rw [hgetj]
    simp [degree, get_neighbors]
  · simp only [hmem, if_false]
    set ns1 := if j ∈ g.neighbors.getD i [] then g.neighbors
      else g.neighbors.set i (g.neighbors.getD i [] ++ [j]) with hns1
    by_cases hlen : j < ns1.length
    · rw [getD_set_self ns1 j _ _ hlen]
      simp [degree, get_neighbors]
    · rw [getD_set_oob ns1 j _ hlen]
      rw [hgetj]
      simp [degree, get_neighbors]

/-- `_add_edge` leaves every other node's degree unchanged. -/
theorem degree_add_edge_other (g : GraphState) (i j k : ℕ) (hki : k ≠ i)
    (hkj : k ≠ j) : degree (add_edge g i j) k = degree g k := by
  rw [degree, get_neighbors, add_edge]
  simp only
  have h1 : ∀ x, (g.neighbors.set i x).getD k [] = g.neighbors.getD k [] :=
    fun x => getD_set_ne _ i k _ _ (Ne.symm hki)
  have step1 : (if j ∈ g.neighbors.getD i [] then g.neighbors
      else g.neighbors.set i (g.neighbors.getD i [] ++ [j])).getD k [] =
      g.neighbors.getD k [] := by
    split
    · rfl
    · exact h1 _
  set ns1 := if j ∈ g.neighbors.getD i [] then g.neighbors
    else g.neighbors.set i (g.neighbors.getD i [] ++ [j]) with hns1
  have step2 : ∀ x, (ns1.set j x).getD k [] = ns1.getD k [] :=
    fun x => getD_set_ne _ j k _ _ (Ne.symm hkj)
  have : (if i ∈ ns1.getD j [] then ns1 else ns1.set j (ns1.getD j [] ++ [i])).getD k [] =
      ns1.getD k [] := by
    split
    · rfl
    · exact step2 _
  rw [this, step1, degree, get_neighbors]

/-- `_remove_edge` never increases any degree. -/
theorem degree_remove_edge_le (g : GraphState) (i j k : ℕ) :
    degree (remove_edge g i j) k ≤ degree g k := by
  rw [degree, get_neighbors, remove_edge]
  simp only
  set ns1 := g.neighbors.set i ((g.neighbors.getD i []).erase j) with hns1
  by_cases hkj : k = j
  · subst hkj
    by_cases hlen : k < ns1.length
    · rw [getD_set_self ns1 k _ _ hlen]
      have h2 : (ns1.getD k []).length ≤ degree g k := by
        by_cases hki : k = i
        · subst hki
          by_cases hl : k < g.neighbors.length
          · rw [hns1, getD_set_self _ k _ _ hl]
            exact le_trans (erase_length_le _ _) (le_refl _)
          · rw [hns1, getD_set_oob _ k _ hl]
            exact le_refl _
        · rw [hns1, getD_set_ne _ i k _ _ (fun h => hki h.symm)]
          exact le_refl _
      exact le_trans (erase_length_le _ _) h2
    · rw [getD_set_oob ns1 k _ hlen]
      by_cases hki : k = i
      · subst hki
        by_cases hl : k < g.neighbors.length
        · rw [hns1, getD_set_self _ k _ _ hl]
          exact le_trans (erase_length_le _ _) (le_refl _)
        · rw [hns1, getD_set_oob _ k _ hl]
          exact le_refl _
      · rw [hns1, getD_set_ne _ i k _ _ (fun h => hki h.symm)]
        exact le_refl _
  · rw [getD_set_ne ns1 j k _ _ (fun h => hkj h.symm)]
    by_cases hki : k = i
    · subst hki
      by_cases hl : k < g.neighbors.length
      · rw [hns1, getD_set_self _ k _ _ hl]
        exact erase_length_le _ _
      · rw [hns1, getD_set_oob _ k _ hl]
        exact le_refl _
    · rw [hns1, getD_set_ne _ i k _ _ (fun h => hki h.symm)]
      exact le_refl _

theorem pairList_mem (n : ℕ) (p : ℕ × ℕ) (h : p ∈ pairList n) :
    p.1 < p.2 ∧ p.2 < n := by
  rw [pairList] at h
  simp only [List.mem_flatMap, List.mem_map, List.mem_filter,
    List.mem_range, decide_eq_true_eq] at h
  obtain ⟨i, _, j, ⟨hj, hij⟩, hp⟩ := h
  rw [← hp]
  exact ⟨hij, hj⟩

/-! ## Degree bound preservation under graph ticks -/

theorem degree_decay_weights (g : GraphState) (k : ℕ) :
    degree (decay_weights g) k = degree g k := rfl

theorem degree_weights_update (g : GraphState) (w : List ((ℕ × ℕ) × ℚ)) (k : ℕ) :
    degree { g with weights := w } k = degree g k := rfl

theorem degree_add_random_edge_le (g : GraphState) (pick : ℕ) (w : ℚ) (k : ℕ)
    (hbound : ∀ i, i < g.numBrokers → degree g i ≤ g.maxNeighbors)
    (hk : k < g.numBrokers) :
    degree (add_random_edge g pick w) k ≤ g.maxNeighbors := by
  rw [add_random_edge]
  simp only
  split
  · exact hbound k hk
  · rename_i hne
    set cands := (pairList g.numBrokers).filter
      (fun p => decide (p.2 ∉ g.neighbors.getD p.1 [] ∧
        (g.neighbors.getD p.1 []).length < g.maxNeighbors ∧
        (g.neighbors.getD p.2 []).length < g.maxNeighbors)) with hcands
    have hlt : pick % cands.length < cands.length :=
      Nat.mod_lt _ (List.length_pos.mpr hne)
    have hpmem : cands.getD (pick % cands.length) (0, 0) ∈ cands :=
      getD_mem _ _ _ hlt
    set p := cands.getD (pick % cands.length) (0, 0) with hp
    rw [hcands] at hpmem
    have hfilter := List.mem_filter.mp hpmem
    have hpair := pairList_mem g.numBrokers p hfilter.1
    have hcond := of_decide_eq_true hfilter.2
    obtain ⟨hnadj, hdi, hdj⟩ := hcond
    have hij : p.1 ≠ p.2 := Nat.ne_of_lt hpair.1
    rw [degree_weights_update]
    by_cases hk1 : k = p.1
    · subst hk1
      have := degree_add_edge_fst g p.1 p.2 hij
      have hdeg : degree g p.1 < g.maxNeighbors := hdi
      omega
    · by_cases hk2 : k = p.2
      · subst hk2
        have := degree_add_edge_snd g p.1 p.2 hij
        have hdeg : degree g p.2 < g.maxNeighbors := hdj
        omega
      · rw [degree_add_edge_other g p.1 p.2 k hk1 hk2]
        exact hbound k hk

theorem degree_remove_random_edge_le (g : GraphState) (pick : ℕ) (k : ℕ) :
    degree (remove_random_edge g pick) k ≤ degree g k := by
  rw [remove_random_edge]
  simp only
  split
  · exact le_refl _
  · rw [degree_weights_update]
    exact degree_remove_edge_le g _ _ k

theorem degree_modify_random_weight (g : GraphState) (pick : ℕ) (w : ℚ) (k : ℕ) :
    degree (modify_random_weight g pick w) k = degree g k := by
  rw [degree, get_neighbors, neighbors_modify_random_weight]
  rfl

/-- One `update_graph` tick preserves the degree bound: decay does not touch
adjacency, `_add_random_edge` only joins endpoints strictly below
`maxNeighbors`, `_remove_random_edge` only shrinks degrees, and reweighting
does not touch adjacency. -/
theorem degree_update_graph_le (g : GraphState) (doMod : Bool) (a : GAction)
    (pick : ℕ) (w : ℚ) (k : ℕ)
    (hbound : ∀ i, i < g.numBrokers → degree g i ≤ g.maxNeighbors)
    (hk : k < g.numBrokers) :
    degree (update_graph g doMod a pick w) k ≤ g.maxNeighbors := by
  rw [update_graph]
  have hbound1 : ∀ i, i < (decay_weights g).numBrokers →
      degree (decay_weights g) i ≤ (decay_weights g).maxNeighbors := hbound
  cases doMod with
  | false => exact hbound k hk
  | true =>
    cases a with
    | add =>
      exact degree_add_random_edge_le (decay_weights g) pick w k hbound1 hk
    | remove =>
      exact le_trans (degree_remove_random_edge_le (decay_weights g) pick k)
        (hbound k hk)
    | modifyWeight =>
      exact le_of_eq_of_le
        (degree_modify_random_weight (decay_weights g) pick w k) (hbound k hk)

/-! ## Weight symmetry -/

/-- Symmetry of a weight table: every stored edge `(a, b)` has its reverse
stored with the same value. -/
def WSymm (l : List ((ℕ × ℕ) × ℚ)) : Prop :=
  ∀ a b v, dictGet l (a, b) = some v → dictGet l (b, a) = some v

theorem WSymm_nil : WSymm [] := by
  intro a b v h
  simp [dictGet] at h

/-- Setting both directions of an edge to the same value preserves symmetry. -/
theorem WSymm_setPair (l : List ((ℕ × ℕ) × ℚ)) (i j : ℕ) (w : ℚ)
    (h : WSymm l) : WSymm (dictSet (dictSet l (i, j) w) (j, i) w) := by
  intro a b v hv
  by_cases hab1 : (a, b) = (j, i)
  · rw [hab1, dictGet_dictSet_self] at hv
    have hvw : v = w := by
      injection hv with h'
      exact h'.symm
    subst hvw
    rw [Prod.ext_iff] at hab1
    obtain ⟨ha, hb⟩ := hab1
    subst ha
    subst hb
    by_cases hij : ((b : ℕ), (a : ℕ)) = (a, b)
    · rw [hij, dictGet_dictSet_self]
    · rw [dictGet_dictSet_ne _ _ _ _ hij, dictGet_dictSet_self]
  · rw [dictGet_dictSet_ne _ _ _ _ hab1] at hv
    by_cases hab2 : (a, b) = (i, j)
    · rw [hab2, dictGet_dictSet_self] at hv
      have hvw : v = w := by
        injection hv with h'
        exact h'.symm
      subst hvw
      rw [Prod.ext_iff] at hab2
      obtain ⟨ha, hb⟩ := hab2
      subst ha
      subst hb
      rw [dictGet_dictSet_self]
    · rw [dictGet_dictSet_ne _ _ _ _ hab2] at hv
      have hba := h a b v hv
      have hne1 : (b, a) ≠ (j, i) := by
        intro he
        rw [Prod.ext_iff] at he
        exact hab2 (by rw [Prod.ext_iff]; exact ⟨he.2, he.1⟩)
      have hne2 : (b, a) ≠ (i, j) := by
        intro he
        rw [Prod.ext_iff] at he
        exact hab1 (by rw [Prod.ext_iff]; exact ⟨he.2, he.1⟩)
      rw [dictGet_dictSet_ne _ _ _ _ hne1, dictGet_dictSet_ne _ _ _ _ hne2]
      exact hba

/-- Deleting both directions of an edge preserves symmetry. -/
theorem WSymm_delPair (l : List ((ℕ × ℕ) × ℚ)) (i j : ℕ) (h : WSymm l) :
    WSymm (dictDel (dictDel l (i, j)) (j, i)) := by
  intro a b v hv
  have hne1 : (a, b) ≠ (j, i) := by
    intro he
    rw [he, dictGet_dictDel_self] at hv
    cases hv
  rw [dictGet_dictDel_ne _ _ _ hne1] at hv
  have hne2 : (a, b) ≠ (i, j) := by
    intro he
    rw [he, dictGet_dictDel_self] at hv
    cases hv
  rw [dictGet_dictDel_ne _ _ _ hne2] at hv
  have hba := h a b v hv
  have hne3 : (b, a) ≠ (j, i) := by
    intro he
    rw [Prod.ext_iff] at he
    exact hne2 (by rw [Prod.ext_iff]; exact ⟨he.2, he.1⟩)
  have hne4 : (b, a) ≠ (i, j) := by
    intro he
    rw [Prod.ext_iff] at he
    exact hne1 (by rw [Prod.ext_iff]; exact ⟨he.2, he.1⟩)
  rw [dictGet_dictDel_ne _ _ _ hne3, dictGet_dictDel_ne _ _ _ hne4]
  exact hba

/-- The decay pass multiplies every stored value in place, preserving
symmetry. -/
theorem WSymm_decayMap (l : List ((ℕ × ℕ) × ℚ)) (c : ℚ) (h : WSymm l) :
    WSymm (l.map (fun e => (e.1, e.2 * c))) := by
  intro a b v hv
  rw [dictGet_map_decay] at hv ⊢
  cases hl : dictGet l (a, b) with
  | none => rw [hl] at hv; cases hv
  | some x =>
    rw [hl] at hv
    have hx : x * c = v := by
      injection hv
    rw [h a b x hl]
    simp [hx]

theorem dictGet_isSome_of_mem_keys (l : List ((ℕ × ℕ) × ℚ)) (k : ℕ × ℕ)
    (h : k ∈ l.map Prod.fst) : ∃ v, dictGet l k = some v := by
  induction l with
  | nil => simp at h
  | cons e t ih =>
    by_cases he : e.1 = k
    · exact ⟨e.2, by simp [dictGet, he]⟩
    · have : k ∈ t.map Prod.fst := by
        rcases List.mem_map.mp h with ⟨x, hx, hk⟩
        rcases List.mem_cons.mp hx with hx1 | hx2
        · exact absurd (hx1 ▸ hk) he
        · exact List.mem_map.mpr ⟨x, hx2, hk⟩
      rcases ih this with ⟨v, hv⟩
      exact ⟨v, by simp [dictGet, he, hv]⟩

/-! Weight tables across the graph operations -/

theorem weights_ensure_loop (i : ℕ) (pick : ℕ → ℕ) :
    ∀ (fuel it : ℕ) (g : GraphState), (ensure_loop g i pick fuel it).weights = g.weights := by
  intro fuel
  induction fuel with
  | zero => intro it g; rfl
  | succ n ih =>
    intro it g
    rw [ensure_loop]
    split
    · dsimp only
      split
      · rfl
      · rw [ih]
        rfl
    · rfl

theorem weights_ensure_connectivity (g : GraphState) (pick : ℕ → ℕ → ℕ) :
    (ensure_connectivity g pick).weights = g.weights := by
  rw [ensure_connectivity]
  have hf : ∀ (s : GraphState) (i : ℕ), s.weights = g.weights →
      (ensure_loop s i (pick i) s.minNeighbors 0).weights = g.weights := by
    intro s i hs
    rw [weights_ensure_loop]
    exact hs
  exact foldl_preserve hf (List.range g.numBrokers) g rfl

theorem WSymm_initialize_weights (g : GraphState) (h : WSymm g.weights) :
    WSymm (initialize_weights g).weights := by
  rw [initialize_weights]
  simp only
  apply foldl_preserve (P := WSymm)
  · intro s i hs
    apply foldl_preserve (P := WSymm)
    · intro s2 j hs2
      split
      · exact WSymm_setPair _ _ _ _ hs2
      · exact hs2
    · exact hs
  · exact h

/-- After construction the weight table is symmetric: the random phase and
the connectivity repair never touch weights, and `_initialize_weights`
always inserts both directions together. -/
theorem WSymm_graph_init (n : ℕ) (coin : ℕ → ℕ → Bool) (pick : ℕ → ℕ → ℕ) :
    WSymm (graph_init n coin pick).weights := by
  rw [graph_init]
  apply WSymm_initialize_weights
  rw [weights_ensure_connectivity]
  have hf : ∀ (s : GraphState) (p : ℕ × ℕ), s.weights = [] →
      (if coin p.1 p.2 then add_edge s p.1 p.2 else s).weights = [] := by
    intro s p hs
    split
    · rw [weights_add_edge]
      exact hs
    · exact hs
  have hphase := foldl_preserve hf (pairList n)
    { numBrokers := n, neighbors := List.replicate n [], weights := [] } rfl
  rw [hphase]
  exact WSymm_nil

theorem WSymm_decay_weights (g : GraphState) (h : WSymm g.weights) :
    WSymm (decay_weights g).weights :=
  WSymm_decayMap g.weights g.weightDecay h

theorem WSymm_add_random_edge (g : GraphState) (pick : ℕ) (w : ℚ)
    (h : WSymm g.weights) : WSymm (add_random_edge g pick w).weights := by
  rw [add_random_edge]
  simp only
  split
  · exact h
  · exact WSymm_setPair _ _ _ _ h

theorem WSymm_remove_random_edge (g : GraphState) (pick : ℕ)
    (h : WSymm g.weights) : WSymm (remove_random_edge g pick).weights := by
  rw [remove_random_edge]
  simp only
  split
  · exact h
  · exact WSymm_delPair _ _ _ h

theorem WSymm_modify_random_weight (g : GraphState) (pick : ℕ) (w : ℚ)
    (h : WSymm g.weights) : WSymm (modify_random_weight g pick w).weights := by
  rw [modify_random_weight]
  split
  · exact h
  · rename_i hne
    simp only
    set keys := g.weights.map Prod.fst with hkeys
    have hklen : keys.length = g.weights.length := by
      rw [hkeys, List.length_map]
    have hlt : pick % keys.length < keys.length := by
      apply Nat.mod_lt
      rw [hklen]
      exact List.length_pos.mpr hne
    have hmem : keys.getD (pick % keys.length) (0, 0) ∈ keys := getD_mem _ _ _ hlt
    set e := keys.getD (pick % keys.length) (0, 0) with he
    obtain ⟨v0, hv0⟩ := dictGet_isSome_of_mem_keys g.weights e (by rw [hkeys] at hmem; exact hmem)
    have hv0' : dictGet g.weights (e.1, e.2) = some v0 := by
      rw [← hv0]
    have hrev : ∃ vr, dictGet g.weights (e.2, e.1) = some vr :=
      ⟨v0, h e.1 e.2 v0 hv0'⟩
    have hsome : (dictGet (dictSet g.weights e w) (e.2, e.1)).isSome = true := by
      by_cases hee : ((e.2 : ℕ), (e.1 : ℕ)) = e
      · rw [hee, dictGet_dictSet_self]
        rfl
      · rw [dictGet_dictSet_ne _ _ _ _ hee]
        obtain ⟨vr, hvr⟩ := hrev
        rw [hvr]
        rfl
    rw [if_pos hsome]
    have hsp := WSymm_setPair g.weights e.1 e.2 w h
    exact hsp

theorem WSymm_random_graph_modification (g : GraphState) (a : GAction)
    (pick : ℕ) (w : ℚ) (h : WSymm g.weights) :
    WSymm (random_graph_modification g a pick w).weights := by
  cases a with
  | add => exact WSymm_add_random_edge g pick w h
  | remove => exact WSymm_remove_random_edge g pick h
  | modifyWeight => exact WSymm_modify_random_weight g pick w h

theorem WSymm_update_graph (g : GraphState) (doMod : Bool) (a : GAction)
    (pick : ℕ) (w : ℚ) (h : WSymm g.weights) :
    WSymm (update_graph g doMod a pick w).weights := by
  rw [update_graph]
  cases doMod with
  | false => exact WSymm_decay_weights g h
  | true =>
    exact WSymm_random_graph_modification (decay_weights g) a pick w
      (WSymm_decay_weights g h)

theorem WSymm_applySteps (g : GraphState) (steps : List GStep)
    (h : WSymm g.weights) : WSymm (applySteps g steps).weights := by
  induction steps generalizing g with
  | nil => exact h
  | cons s rest ih =>
    rw [applySteps]
    cases s with
    | decay => exact ih _ (WSymm_decay_weights g h)
    | mutate a pick w => exact ih _ (WSymm_random_graph_modification g a pick w h)
    | tick doMod a pick w => exact ih _ (WSymm_update_graph g doMod a pick w h)

/-! ## Behaviour of the consensus pass -/

theorem consensus_step_getD_ne (g : GraphState) (gamma : ℚ)
    (ths : List (List ℚ)) (j i : ℕ) (hji : j ≠ i) :
    (consensus_step g gamma ths j).getD i [] = ths.getD i [] := by
  rw [consensus_step]
  split
  · rfl
  · exact getD_set_ne _ j i _ _ hji

theorem consensus_seq_getD_not_mem (g : GraphState) (gamma : ℚ) (ids : List ℕ)
    (i : ℕ) (h : ∀ j ∈ ids, j ≠ i) :
    ∀ ths : List (List ℚ), (consensus_seq g gamma ids ths).getD i [] = ths.getD i [] := by
  induction ids with
  | nil => intro ths; rfl
  | cons j rest ih =>
    intro ths
    rw [consensus_seq, List.foldl_cons]
    have h1 := ih (fun j' hj' => h j' (by simp [hj'])) (consensus_step g gamma ths j)
    rw [consensus_seq] at h1
    rw [h1, consensus_step_getD_ne g gamma ths j i (h j (by simp))]

theorem consensus_seq_getD_no_neighbors (g : GraphState) (gamma : ℚ)
    (ids : List ℕ) (i : ℕ) (h : get_neighbors g i = []) :
    ∀ ths : List (List ℚ), (consensus_seq g gamma ids ths).getD i [] = ths.getD i [] := by
  induction ids with
  | nil => intro ths; rfl
  | cons j rest ih =>
    intro ths
    rw [consensus_seq, List.foldl_cons]
    have h1 := ih (consensus_step g gamma ths j)
    rw [consensus_seq] at h1
    rw [h1]
    by_cases hji : j = i
    · subst hji
      rw [consensus_step, if_pos h]
    · exact consensus_step_getD_ne g gamma ths j i hji

/-- Brokers without neighbors are left untouched by the consensus pass. -/
theorem consensus_update_skip (g : GraphState) (ths : List (List ℚ))
    (gamma : ℚ) (i : ℕ) (h : get_neighbors g i = []) :
    (consensus_update g ths gamma).getD i [] = ths.getD i [] := by
  rw [consensus_update]
  exact consensus_seq_getD_no_neighbors g gamma _ i h ths

/-- The first broker processed is the only one whose update is guaranteed to
agree with the snapshot semantics: its correction is computed before
anything has been overwritten, and later iterations never touch slot `0`. -/
theorem consensus_update_getD_zero (g : GraphState) (ths : List (List ℚ))
    (gamma : ℚ) :
    (consensus_update g ths gamma).getD 0 [] =
      (consensus_update_snapshot g ths gamma).getD 0 [] := by
  cases hths : ths with
  | nil =>
    simp [consensus_update, consensus_seq, consensus_update_snapshot]
  | cons th rest =>
    have hlen : ths.length = rest.length + 1 := by rw [hths]; rfl
    have hpos : 0 < ths.length := by omega
    rw [← hths]
    rw [consensus_update, hlen, List.range_succ_eq_map, consensus_seq,
      List.foldl_cons]
    have hrest : ∀ ths' : List (List ℚ),
        (((List.range rest.length).map Nat.succ).foldl
          (consensus_step g gamma) ths').getD 0 [] = ths'.getD 0 [] := by
      intro ths'
      have := consensus_seq_getD_not_mem g gamma
        ((List.range rest.length).map Nat.succ) 0
        (by
          intro j hj
          rcases List.mem_map.mp hj with ⟨m, _, hm⟩
          omega) ths'
      rw [consensus_seq] at this
      exact this
    rw [hrest]
    have hsnap : (consensus_update_snapshot g ths gamma).getD 0 [] =
        (if get_neighbors g 0 = [] then ths.getD 0 []
         else consensus_new_theta g gamma ths 0) := by
      rw [consensus_update_snapshot]
      exact getD_map_range ths.length 0 _ [] hpos
    rw [hsnap, consensus_step]
    split
    · rfl
    · exact getD_set_self ths 0 _ [] hpos

/-! ## Iterated task processing -/

/-- A freshly constructed broker (`Broker.__init__` with the initial theta
draw passed in). -/
def init_broker (execs : List ℕ) (theta0 : List ℚ) : BrokerState :=
  { executors := execs, theta := theta0, load := 0, taskCount := 0,
    history := [], totalTasks := 0, successfulTasks := 0, averageLoad := 0 }

/-- Feed `n` tasks through `process_task`, counting how many of them ran the
SPSA update (the source triggers it whenever the post-append history length
is at least 10). -/
def run_broker (cfg : SPSAConfigM) (t : Task) (rs : ℕ → TaskRand)
    (st0 : BrokerState) : ℕ → BrokerState × ℕ
  | 0 => (st0, 0)
  | n + 1 =>
    let prev := run_broker cfg t rs st0 n
    ((process_task cfg prev.1 t (rs n)).2,
      prev.2 + if 10 ≤ prev.1.history.length + 1 then 1 else 0)

theorem update_spsa_history (alpha beta : ℚ) (st : BrokerState)
    (delta : List ℚ) (jp jm : ℚ) :
    (update_spsa alpha beta st delta jp jm).history = st.history := by
  rw [update_spsa]
  split
  · rfl
  · rfl

theorem update_spsa_executors (alpha beta : ℚ) (st : BrokerState)
    (delta : List ℚ) (jp jm : ℚ) :
    (update_spsa alpha beta st delta jp jm).executors = st.executors := by
  rw [update_spsa]
  split
  · rfl
  · rfl

theorem process_task_of_select_error (cfg : SPSAConfigM) (st : BrokerState)
    (t : Task) (r : TaskRand) (e : String)
    (hsel : select_executor st.theta t r.fills r.jitters st.executors = .error e) :
    process_task cfg st t r = (⟨"error", false, some e, none⟩, st) := by
  rw [process_task, hsel]

theorem process_task_of_select_none (cfg : SPSAConfigM) (st : BrokerState)
    (t : Task) (r : TaskRand)
    (hsel : select_executor st.theta t r.fills r.jitters st.executors = .ok none) :
    process_task cfg st t r =
      (⟨"failed", false, some "No available executor", none⟩, st) := by
  rw [process_task, hsel]

/-- On a broker with at least three executors every task completes: an
executor is selected, the outcome is appended to the history, and only
`theta` may additionally change (through the SPSA update). -/
theorem process_task_completed (cfg : SPSAConfigM) (st : BrokerState)
    (t : Task) (r : TaskRand) (h3 : 3 ≤ st.executors.length) :
    ∃ ex, (process_task cfg st t r).1 = ⟨"completed", r.success, none, some ex⟩ ∧
      (process_task cfg st t r).2.history = st.history ++ [⟨r.success, r.execTime⟩] ∧
      (process_task cfg st t r).2.executors = st.executors := by
  obtain ⟨k, hk, hsel, _, _⟩ :=
    select_executor_spec st.theta t r.fills r.jitters st.executors h3
  refine ⟨st.executors.getD k 0, ?_⟩
  rw [process_task, hsel]
  refine ⟨rfl, ?_, ?_⟩
  · simp only
    split
    · rw [update_spsa_history]
    · rfl
  · simp only
    split
    · rw [update_spsa_executors]
    · rfl

/-- Running `n` tasks from a fresh broker with at least three executors:
every task lands in the history, the executor set never changes, and the
SPSA update has run `n - 9` times (`0` for `n ≤ 9`). -/
theorem run_broker_spec (cfg : SPSAConfigM) (t : Task) (rs : ℕ → TaskRand)
    (execs : List ℕ) (theta0 : List ℚ) (h3 : 3 ≤ execs.length) :
    ∀ n, (run_broker cfg t rs (init_broker execs theta0) n).1.executors = execs ∧
      (run_broker cfg t rs (init_broker execs theta0) n).1.history.length = n ∧
      (run_broker cfg t rs (init_broker execs theta0) n).2 = n - min n 9 := by
  intro n
  induction n with
  | zero => exact ⟨rfl, rfl, rfl⟩
  | succ n ih =>
    obtain ⟨ihex, ihlen, ihcnt⟩ := ih
    set prev := run_broker cfg t rs (init_broker execs theta0) n with hprev
    have h3' : 3 ≤ prev.1.executors.length := by rw [ihex]; exact h3
    obtain ⟨ex, _, hhist, hexec⟩ := process_task_completed cfg prev.1 t (rs n) h3'
    refine ⟨?_, ?_, ?_⟩
    · show (process_task cfg prev.1 t (rs n)).2.executors = execs
      rw [hexec, ihex]
    · show (process_task cfg prev.1 t (rs n)).2.history.length = n + 1
      rw [hhist, List.length_append, ihlen]
      rfl
    · show prev.2 + (if 10 ≤ prev.1.history.length + 1 then 1 else 0) =
        (n + 1) - min (n + 1) 9
      rw [ihcnt, ihlen]
      by_cases h9 : 9 ≤ n
      · rw [if_pos (by omega)]
        omega
      · rw [if_neg (by omega)]
        omega

/-! ## Concrete instances used by counterexamples and witnesses -/

/-- A 2-broker graph whose single edge `0 - 1` carries weight `1`
(`graph_init` with every coin landing). -/
def gC1 : GraphState := graph_init 2 (fun _ _ => true) (fun _ _ => 0)

/-- A 1-broker graph: the single node has no neighbors. -/
def gIso : GraphState := graph_init 1 (fun _ _ => false) (fun _ _ => 0)

/-- A 7-broker graph in which every construction coin landed: the complete
graph on 7 nodes. -/
def gC2bad : GraphState := graph_init 7 (fun _ _ => true) (fun _ _ => 0)

/-- A 3-broker graph in which every construction coin landed: the triangle,
all degrees 2. -/
def gC2w : GraphState := graph_init 3 (fun _ _ => true) (fun _ _ => 0)

/-- A fixed concrete task. -/
def taskC : Task := ⟨5, 5, 0⟩

/-- A fixed draw of all random inputs of one `process_task` call. -/
def randC : TaskRand := ⟨fun _ _ => 0, fun _ => 0, 1, true, [1, 1, 1, 1], 0, 0⟩

/-- A broker state with exactly 10 history records. -/
def stTen : BrokerState :=
  { executors := [0, 1, 2, 3], theta := [1, 0, 0, 0], load := 0,
    taskCount := 10, history := List.replicate 10 ⟨true, 1⟩,
    totalTasks := 10, successfulTasks := 10, averageLoad := 0 }

/-! ## The claims -/

/-- C1, counterexample: on the 2-broker graph with edge weight 1 and
`theta = [[0], [1]]`, the source's consensus pass differs from the
snapshot-simultaneous semantics (broker 1 reads broker 0's already-updated
vector), and iterating the brokers in the order `[1, 0]` gives yet another
result, so the outcome is not independent of the iteration order. -/
theorem c1_counterexample :
    consensus_update gC1 [[0], [1]] (1 / 50) ≠
      consensus_update_snapshot gC1 [[0], [1]] (1 / 50) ∧
    consensus_seq gC1 (1 / 50) [0, 1] [[0], [1]] ≠
      consensus_seq gC1 (1 / 50) [1, 0] [[0], [1]] := by
  constructor
  · with_unfolding_all decide
  · with_unfolding_all decide

/-- C1, amended: `consensus_update` iterates the brokers in ascending index
order and overwrites each `theta_i` in place, so later brokers read
already-updated neighbor vectors; brokers without neighbors are skipped, and
only the first-processed broker (index 0) is guaranteed to receive the
snapshot-semantics correction. -/
theorem c1_consensus_inplace (g : GraphState) (ths : List (List ℚ))
    (gamma : ℚ) :
    consensus_update g ths gamma =
      consensus_seq g gamma (List.range ths.length) ths ∧
    (∀ i, get_neighbors g i = [] →
      (consensus_update g ths gamma).getD i [] = ths.getD i []) ∧
    (consensus_update g ths gamma).getD 0 [] =
      (consensus_update_snapshot g ths gamma).getD 0 [] :=
  ⟨rfl, fun i h => consensus_update_skip g ths gamma i h,
    consensus_update_getD_zero g ths gamma⟩

/-- C1, witness: on the isolated 1-broker graph the skip clause applies and
broker 0 keeps its vector. -/
theorem c1_witness :
    get_neighbors gIso 0 = [] ∧
    (consensus_update gIso [[1]] (1 / 50)).getD 0 [] = [1] := by
  refine ⟨by decide, ?_⟩
  rw [(c1_consensus_inplace gIso [[1]] (1 / 50)).2.1 0 (by decide)]
  rfl

/-- C2, counterexample: with 7 brokers and every construction coin landing,
node 0 ends construction with degree 6 > maxNeighbors = 5 (the initial
random phase checks no degree bound), refuting the claim already at tick
count zero. -/
theorem c2_counterexample :
    0 < degree gC2bad 0 ∧ gC2bad.maxNeighbors < degree gC2bad 0 := by
  constructor
  · with_unfolding_all decide
  · with_unfolding_all decide

/-- C2, amended: the degree bound is preserved by every `update_graph` tick
(`_add_random_edge` only joins endpoints strictly below `maxNeighbors`,
removal shrinks degrees, reweighting does not touch adjacency) — but it is
not established by construction, whose independent-coin phase is unbounded. -/
theorem c2_degree_bound_ticks (g : GraphState) (doMod : Bool) (a : GAction)
    (pick : ℕ) (w : ℚ)
    (hbound : ∀ i, i < g.numBrokers → degree g i ≤ g.maxNeighbors) :
    ∀ i, i < g.numBrokers →
      degree (update_graph g doMod a pick w) i ≤ g.maxNeighbors :=
  fun i hi => degree_update_graph_le g doMod a pick w i hbound hi

/-- C2, witness: the triangle on 3 brokers satisfies the bound and keeps it
through a tick that adds a random edge. -/
theorem c2_witness :
    (∀ i, i < gC2w.numBrokers → degree gC2w i ≤ gC2w.maxNeighbors) ∧
    (∀ i, i < gC2w.numBrokers →
      degree (update_graph gC2w true .add 0 (1 / 2)) i ≤ gC2w.maxNeighbors) :=
  ⟨by with_unfolding_all decide,
    c2_degree_bound_ticks gC2w true .add 0 (1 / 2) (by with_unfolding_all decide)⟩

/-- C3, counterexample: after 11 completed tasks the SPSA update has run
twice (at the 10th and 11th tasks: the source triggers whenever the history
length is at least 10), not once per reached multiple of 10 as claimed
(`11 / 10 = 1`). -/
theorem c3_counterexample :
    (run_broker defaultSPSAConfig taskC (fun _ => randC)
      (init_broker [0, 1, 2, 3] [0, 0, 0, 0]) 11).2 = 2 ∧
    (run_broker defaultSPSAConfig taskC (fun _ => randC)
      (init_broker [0, 1, 2, 3] [0, 0, 0, 0]) 11).2 ≠ 11 / 10 := by
  have h := (run_broker_spec defaultSPSAConfig taskC (fun _ => randC)
    [0, 1, 2, 3] [0, 0, 0, 0] (by decide) 11).2.2
  constructor
  · rw [h]
    decide
  · rw [h]
    decide

/-- C3, amended: every completed task appends one record to the history, and
the SPSA update step runs on every task from the 10th onwards (the threshold
is hardcoded at 10; the configured update window is not consulted): after
`n` tasks the update has run `n - 9` times (`0` for `n ≤ 9`). -/
theorem c3_update_every_task (cfg : SPSAConfigM) (t : Task)
    (rs : ℕ → TaskRand) (execs : List ℕ) (theta0 : List ℚ)
    (h3 : 3 ≤ execs.length) (n : ℕ) :
    (run_broker cfg t rs (init_broker execs theta0) n).1.history.length = n ∧
    (run_broker cfg t rs (init_broker execs theta0) n).2 = n - min n 9 :=
  ⟨(run_broker_spec cfg t rs execs theta0 h3 n).2.1,
    (run_broker_spec cfg t rs execs theta0 h3 n).2.2⟩

/-- C3, witness: ten tasks yield a history of length 10 and exactly one
update. -/
theorem c3_witness :
    3 ≤ ([0, 1, 2, 3] : List ℕ).length ∧
    (run_broker defaultSPSAConfig taskC (fun _ => randC)
      (init_broker [0, 1, 2, 3] [0, 0, 0, 0]) 10).1.history.length = 10 ∧
    (run_broker defaultSPSAConfig taskC (fun _ => randC)
      (init_broker [0, 1, 2, 3] [0, 0, 0, 0]) 10).2 = 10 - min 10 9 :=
  ⟨by decide, c3_update_every_task defaultSPSAConfig taskC (fun _ => randC)
    [0, 1, 2, 3] [0, 0, 0, 0] (by decide) 10⟩

/-- C4, counterexample: with the update window configured to 100 and a
history of length 10 (strictly below that window), the update is not a
no-op — the hardcoded threshold 10 is reached and `theta` moves. -/
theorem c4_counterexample :
    stTen.history.length < ({ defaultSPSAConfig with update_frequency := 100 } :
      SPSAConfigM).update_frequency ∧
    (update_spsa ({ defaultSPSAConfig with update_frequency := 100 } :
        SPSAConfigM).alpha
      ({ defaultSPSAConfig with update_frequency := 100 } : SPSAConfigM).beta
      stTen [1, 1, 1, 1] 0 0).theta ≠ stTen.theta := by
  constructor
  · decide
  · with_unfolding_all decide

/-- C4, amended: the no-op guard of `_update_spsa_parameters` is the
hardcoded threshold 10, not the configured window: with history shorter than
10 the update returns the state unchanged (and, being total, cannot raise),
for every `alpha`, `beta` and random draw. -/
theorem c4_noop_below_hardcoded_window (alpha beta : ℚ) (st : BrokerState)
    (delta : List ℚ) (jp jm : ℚ) (h : st.history.length < 10) :
    update_spsa alpha beta st delta jp jm = st := by
  rw [update_spsa, if_pos h]

/-- C4, witness: a fresh broker (empty history) is left unchanged. -/
theorem c4_witness :
    (init_broker [0, 1, 2, 3] [1, 0, 0, 0]).history.length < 10 ∧
    update_spsa (1 / 100) (1 / 10) (init_broker [0, 1, 2, 3] [1, 0, 0, 0])
      [1, 1, 1, 1] 0 0 = init_broker [0, 1, 2, 3] [1, 0, 0, 0] :=
  ⟨by decide, c4_noop_below_hardcoded_window (1 / 100) (1 / 10)
    (init_broker [0, 1, 2, 3] [1, 0, 0, 0]) [1, 1, 1, 1] 0 0 (by decide)⟩

theorem clipQ_bounds (v : ℚ) : -2 ≤ clipQ v ∧ clipQ v ≤ 2 := by
  constructor
  · exact le_min (le_max_right v (-2)) (by norm_num)
  · exact min_le_right _ 2

/-- C5: whenever the SPSA update actually performs its step (history length
at least 10), every component of the resulting `theta` lies in `[-2, 2]` —
for every pre-update state and regardless of the drawn sign vector and the
simulated loss draws, because `np.clip` is the last operation applied. -/
theorem c5_theta_clipped (alpha beta : ℚ) (st : BrokerState) (delta : List ℚ)
    (jp jm : ℚ) (h : 10 ≤ st.history.length) :
    ∀ x ∈ (update_spsa alpha beta st delta jp jm).theta, -2 ≤ x ∧ x ≤ 2 := by
  rw [update_spsa, if_neg (by omega)]
  intro x hx
  simp only at hx
  rcases List.mem_map.mp hx with ⟨y, _, rfl⟩
  exact clipQ_bounds y

/-- C5, witness: a state with exactly 10 records, evaluated concretely. -/
theorem c5_witness :
    10 ≤ stTen.history.length ∧
    ∀ x ∈ (update_spsa (1 / 100) (1 / 10) stTen [1, 1, 1, 1] 0 0).theta,
      -2 ≤ x ∧ x ≤ 2 :=
  ⟨by decide, c5_theta_clipped (1 / 100) (1 / 10) stTen [1, 1, 1, 1] 0 0
    (by decide)⟩

/-- C6, counterexample: on the non-empty candidate list `[7]` the selection
does not return a member at all — feature extraction raises (the vector has
length 1 but index 1 is written), and the raise escapes `_select_executor`. -/
theorem c6_counterexample :
    select_executor [0] taskC (fun _ _ => 0) (fun _ => 0) [7] =
      .error "index out of bounds" ∧
    ∀ e ∈ ([7] : List ℕ),
      select_executor [0] taskC (fun _ _ => 0) (fun _ => 0) [7] ≠
        .ok (some e) := by
  have h := select_executor_err [0] taskC (fun _ _ => 0) (fun _ => 0) [7]
    (Or.inl rfl)
  refine ⟨h, ?_⟩
  intro e _ hcontra
  rw [h] at hcontra
  cases hcontra

/-- C6, amended: on a candidate list of length at least 3 (so that feature
extraction succeeds) the selection returns a member of the list whose score
is maximal, ties broken in favor of the earliest candidate (every strictly
earlier candidate scores strictly less); on an empty candidate list the
task is not silently dropped: `process_task` returns the
`'No available executor'` failure result and leaves the state unchanged.
Candidate lists of length 1 or 2 instead raise out of the selection (C9). -/
theorem c6_selection (theta : List ℚ) (t : Task) (fills : ℕ → ℕ → ℚ)
    (jitters : ℕ → ℚ) (execs : List ℕ) (cfg : SPSAConfigM) (st : BrokerState)
    (r : TaskRand) :
    (3 ≤ execs.length → ∃ k, k < execs.length ∧
      select_executor theta t fills jitters execs = .ok (some (execs.getD k 0)) ∧
      (∀ j, j < execs.length →
        scoreAt theta t fills jitters execs.length j ≤
          scoreAt theta t fills jitters execs.length k) ∧
      (∀ j, j < k →
        scoreAt theta t fills jitters execs.length j <
          scoreAt theta t fills jitters execs.length k)) ∧
    (st.executors = [] → process_task cfg st t r =
      (⟨"failed", false, some "No available executor", none⟩, st)) := by
  constructor
  · exact fun h3 => select_executor_spec theta t fills jitters execs h3
  · intro hnil
    apply process_task_of_select_none
    rw [hnil, select_executor]
    rfl

/-- C6, witness: selection on the 3-executor list `[5, 6, 7]` returns a
maximal-score member, and an executor-less broker reports the failure
result. -/
theorem c6_witness :
    (∃ k, k < ([5, 6, 7] : List ℕ).length ∧
      select_executor [0, 0, 0] taskC (fun _ _ => 0) (fun _ => 0) [5, 6, 7] =
        .ok (some (([5, 6, 7] : List ℕ).getD k 0)) ∧
      (∀ j, j < ([5, 6, 7] : List ℕ).length →
        scoreAt [0, 0, 0] taskC (fun _ _ => 0) (fun _ => 0) 3 j ≤
          scoreAt [0, 0, 0] taskC (fun _ _ => 0) (fun _ => 0) 3 k) ∧
      (∀ j, j < k →
        scoreAt [0, 0, 0] taskC (fun _ _ => 0) (fun _ => 0) 3 j <
          scoreAt [0, 0, 0] taskC (fun _ _ => 0) (fun _ => 0) 3 k)) ∧
    process_task defaultSPSAConfig (init_broker [] []) taskC randC =
      (⟨"failed", false, some "No available executor", none⟩, init_broker [] []) :=
  ⟨(c6_selection [0, 0, 0] taskC (fun _ _ => 0) (fun _ => 0) [5, 6, 7]
      defaultSPSAConfig (init_broker [] []) randC).1 (by decide),
    (c6_selection [0, 0, 0] taskC (fun _ _ => 0) (fun _ => 0) [5, 6, 7]
      defaultSPSAConfig (init_broker [] []) randC).2 rfl⟩

/-- C7: the LVP correction leaves the load unchanged on an empty neighbor
list; otherwise it equals
`max(0, selfLoad + 0.1 * (-(h + gamma) * (selfLoad - mean(neighborLoads))))`
and is never negative (for every `selfLoad`, hence in particular for
`selfLoad ≥ 0`). -/
theorem c7_lvp_correction (h gamma selfLoad : ℚ) (ns : List ℚ) :
    balance_load h gamma selfLoad [] = selfLoad ∧
    (ns ≠ [] →
      balance_load h gamma selfLoad ns =
        max 0 (selfLoad + (1 / 10) *
          (-((h + gamma) * (selfLoad - ns.sum / ns.length)))) ∧
      0 ≤ balance_load h gamma selfLoad ns) := by
  constructor
  · rw [balance_load]
    rfl
  · intro hne
    constructor
    · rw [balance_load, if_neg hne]
      ring_nf
    · rw [balance_load, if_neg hne]
      exact le_max_left 0 _

/-- C7, witness: one neighbor with load 1 and self load 5, with the default
LVP coefficients `h = 0.1`, `gamma = 0.05`. -/
theorem c7_witness :
    ([(1 : ℚ)] ≠ []) ∧
    (balance_load (1 / 10) (1 / 20) 5 [1] =
      max 0 (5 + (1 / 10) * (-((1 / 10 + 1 / 20) * (5 - ([(1 : ℚ)].sum / ([(1 : ℚ)] : List ℚ).length)))))) ∧
    0 ≤ balance_load (1 / 10) (1 / 20) 5 [1] :=
  ⟨by simp, ((c7_lvp_correction (1 / 10) (1 / 20) 5 [1]).2 (by simp)).1,
    ((c7_lvp_correction (1 / 10) (1 / 20) 5 [1]).2 (by simp)).2⟩

/-- C8: edge-weight symmetry — for every graph produced by construction
followed by any sequence of decay passes, structural mutations and full
`update_graph` ticks, every stored weight entry `(i, j)` has its reverse
`(j, i)` stored with the same value. -/
theorem c8_weight_symmetry (n : ℕ) (coin : ℕ → ℕ → Bool)
    (pick : ℕ → ℕ → ℕ) (steps : List GStep) :
    WSymm (applySteps (graph_init n coin pick) steps).weights :=
  WSymm_applySteps (graph_init n coin pick) steps (WSymm_graph_init n coin pick)

/-- C9: a broker with exactly one or two executors errors on every task —
feature extraction writes index 1 (resp. 2) of a vector of length 1
(resp. 2), the `IndexError` is caught by the handler in `process_task`, the
result status is `'error'`, and the whole broker state (in particular
`theta` and the history) is unchanged. -/
theorem c9_short_executor_list_errors (cfg : SPSAConfigM) (st : BrokerState)
    (t : Task) (r : TaskRand)
    (h : st.executors.length = 1 ∨ st.executors.length = 2) :
    (process_task cfg st t r).1.status = "error" ∧
    (process_task cfg st t r).2 = st := by
  have hsel := select_executor_err st.theta t r.fills r.jitters st.executors h
  rw [process_task_of_select_error cfg st t r _ hsel]
  exact ⟨rfl, rfl⟩

/-- C9, witness: the single-executor broker `[3]`. -/
theorem c9_witness :
    ((init_broker [3] [0]).executors.length = 1 ∨
      (init_broker [3] [0]).executors.length = 2) ∧
    (process_task defaultSPSAConfig (init_broker [3] [0]) taskC randC).1.status =
      "error" ∧
    (process_task defaultSPSAConfig (init_broker [3] [0]) taskC randC).2 =
      init_broker [3] [0] :=
  ⟨Or.inl (by decide),
    (c9_short_executor_list_errors defaultSPSAConfig (init_broker [3] [0])
      taskC randC (Or.inl (by decide))).1,
    (c9_short_executor_list_errors defaultSPSAConfig (init_broker [3] [0])
      taskC randC (Or.inl (by decide))).2⟩

/-- C10: `process_task` is total at its interface — the returned status is
always one of `'completed'`, `'failed'`, `'error'`, and every exception
escaping the selection/extraction path is captured by the catch-all handler
and returned as a `status = 'error'` result carrying the exception message,
with the broker state unchanged. -/
theorem c10_total_interface (cfg : SPSAConfigM) (st : BrokerState) (t : Task)
    (r : TaskRand) :
    ((process_task cfg st t r).1.status = "completed" ∨
      (process_task cfg st t r).1.status = "failed" ∨
      (process_task cfg st t r).1.status = "error") ∧
    (∀ e, select_executor st.theta t r.fills r.jitters st.executors = .error e →
      (process_task cfg st t r).1 = ⟨"error", false, some e, none⟩ ∧
      (process_task cfg st t r).2 = st) := by
  constructor
  · cases hsel : select_executor st.theta t r.fills r.jitters st.executors with
    | error e =>
      rw [process_task_of_select_error cfg st t r e hsel]
      right
      right
      rfl
    | ok o =>
      cases o with
      | none =>
        rw [process_task_of_select_none cfg st t r hsel]
        right
        left
        rfl
      | some ex =>
        rw [process_task, hsel]
        left
        rfl
  · intro e hsel
    rw [process_task_of_select_error cfg st t r e hsel]
    exact ⟨rfl, rfl⟩

/-- C10, witness: the single-executor broker raises inside selection; the
result surfaces the message with status `'error'` and the state survives. -/
theorem c10_witness :
    select_executor (init_broker [3] [1]).theta taskC randC.fills randC.jitters
      (init_broker [3] [1]).executors = .error "index out of bounds" ∧
    (process_task defaultSPSAConfig (init_broker [3] [1]) taskC randC).1 =
      ⟨"error", false, some "index out of bounds", none⟩ ∧
    (process_task defaultSPSAConfig (init_broker [3] [1]) taskC randC).2 =
      init_broker [3] [1] :=
  ⟨select_executor_err _ taskC randC.fills randC.jitters _ (Or.inl rfl),
    ((c10_total_interface defaultSPSAConfig (init_broker [3] [1]) taskC randC).2
      "index out of bounds"
      (select_executor_err _ taskC randC.fills randC.jitters _ (Or.inl rfl))).1,
    ((c10_total_interface defaultSPSAConfig (init_broker [3] [1]) taskC randC).2
      "index out of bounds"
      (select_executor_err _ taskC randC.fills randC.jitters _ (Or.inl rfl))).2⟩

end MAS
